import Mathlib

/- Verification of core properties of the abismal bisulfite read mapper.
   The definitions below are shallow embeddings of the C++ source:
   the bit-packed base encoders (dna_four_bit_bisulfite.hpp), the
   candidate comparator `full_compare`, the seed preprocessing
   `prep_for_seeds`, the single-end result protocol `se_result`, the
   paired-end mating window in `best_pair`, the `max_candidates`
   auto-selection, the read-length guard of `ReadLoader`, and the
   banded local aligner `AbismalAlign::align` (AbismalAlign.hpp).
   Machine integers are modelled as Nat/Int; `score_t` (int16_t) values
   stay far from the representation bounds on the inputs considered. -/

namespace Abismal

/-- T-rich encoding of ASCII bases (table `encode_base_t_rich` in
dna_four_bit_bisulfite.hpp): A ↦ 0001, C ↦ 0010, G ↦ 0100, T ↦ 1010
(both cases); every other character maps to 0. -/
def encode_base_t_rich (c : Nat) : Nat :=
  if c = 65 ∨ c = 97 then 1
  else if c = 67 ∨ c = 99 then 2
  else if c = 71 ∨ c = 103 then 4
  else if c = 84 ∨ c = 116 then 10
  else 0

/-- A-rich encoding of ASCII bases (table `encode_base_a_rich` in
dna_four_bit_bisulfite.hpp): A ↦ 0101, C ↦ 0010, G ↦ 0100, T ↦ 1000. -/
def encode_base_a_rich (c : Nat) : Nat :=
  if c = 65 ∨ c = 97 then 5
  else if c = 67 ∨ c = 99 then 2
  else if c = 71 ∨ c = 103 then 4
  else if c = 84 ∨ c = 116 then 8
  else 0

/-- Modelled from the spec: the canonical 4-bit reference encoding
(spec §3, `dna_four_bit.hpp` is not under src/): A = 0001, C = 0010,
G = 0100, T = 1000. -/
def encode_ref (c : Nat) : Nat :=
  if c = 65 then 1
  else if c = 67 then 2
  else if c = 71 then 4
  else if c = 84 then 8
  else 0

/-- The mismatch predicate `the_comp` (abismal.cpp): two 4-bit masks
mismatch exactly when their bitwise AND is zero. -/
def the_comp (a b : Nat) : Bool :=
  a &&& b == 0

/-- ASCII codes of the four upper-case DNA bases A, C, G, T. -/
def dnaBases : List Nat := [65, 67, 71, 84]

/-- Modelled from the spec: `mismatch_lookup` lives in AbismalIndex.hpp,
which is not under src/.  Per spec §4.4 it contributes one mismatch
exactly when the byte-level AND of read byte and genome byte is zero. -/
def mismatch_lookup (b : Nat) : Int :=
  if b = 0 then 1 else 0

/-- Loop of `full_compare` (abismal.cpp): while `d != cutoff` and the
read is not exhausted, add `mismatch_lookup(read_byte & genome_byte)`
to `d` and advance both iterators.  The genome iterator has no end in
the source (the caller guarantees enough genome bytes); the model
consumes a genome list in step with the read. -/
def full_compare_go (cutoff : Int) : Int → List Nat → List Nat → Int
  | d, r :: rs, g :: gs =>
      if d = cutoff then d
      else full_compare_go cutoff (d + mismatch_lookup (r &&& g)) rs gs
  | d, _, _ => d

/-- Entry point of `full_compare`: the accumulator starts at 0. -/
def full_compare (cutoff : Int) (read genome : List Nat) : Int :=
  full_compare_go cutoff 0 read genome

/-- Number of byte positions where read and genome have no bit in
common (the total mismatch count of a full scan). -/
def mismatch_count (read genome : List Nat) : Nat :=
  (read.zip genome).countP (fun p => p.1 &&& p.2 == 0)

/-- The function `select_max_candidates` (abismal.cpp).  `genome_frac`
is 1.0 in sensitive mode and 1e-5 otherwise; `c = genome_size *
genome_frac` truncated (for every uint32 genome size the double
computation `genome_size * 1e-5` truncates to `genome_size / 100000`,
since the rounding error is below the distance to the nearest integer
boundary).  Note the source assigns `max(c, min_max_candidates)` and
then immediately overwrites it with `min(c, max_max_candidates)`. -/
def select_max_candidates (sensitive_mode : Bool) (genome_size : Nat) : Nat :=
  let c := if sensitive_mode then genome_size else genome_size / 100000
  let max_candidates := max c 100
  let max_candidates := min c 1000000
  max_candidates

/-- Packing loop shared by the even and odd forms in `prep_for_seeds`
(abismal.cpp): two 4-bit bases per byte, low nibble first; a trailing
unpaired base is completed with the match-anything high nibble 0xF0
(`last_base_match_any`). -/
def pack_bases : List Nat → List Nat
  | [] => []
  | [a] => [a ||| 0xF0]
  | a :: b :: rest => (a ||| (b <<< 4)) :: pack_bases rest

/-- The function `prep_for_seeds` (abismal.cpp): the even form packs
the bases starting at offset 0; the odd form starts with the
match-anything low nibble 0x0F (`first_base_match_any`) next to the
first base and then packs the remaining bases.  Called only on
non-empty reads (on `[]` the source would read `*begin` out of
bounds; the model uses `headD 0` there). -/
def prep_for_seeds (pread_seed : List Nat) : List Nat × List Nat :=
  (pack_bases pread_seed,
   (0x0F ||| ((pread_seed.headD 0) <<< 4)) :: pack_bases pread_seed.tail)

/-- Threshold `invalid_hit_threshold` of `se_element` (abismal.cpp):
`static_cast<score_t>(readlen * invalid_hit_frac)` with
`invalid_hit_frac = 0.4`.  For every uint32 readlen the double product
truncates to `2 * readlen / 5` (the double closest to 0.4 exceeds 2/5
by about 2.2e-17, far less than the distance to the next integer). -/
def invalid_hit_threshold (readlen : Nat) : Int :=
  ((2 * readlen) / 5 : Nat)

/-- Threshold used in `se_element::valid` (abismal.cpp):
`static_cast<score_t>(valid_frac * readlen)` with `valid_frac = 0.1`,
which truncates to `readlen / 10`. -/
def valid_threshold (readlen : Nat) : Int :=
  ((readlen / 10 : Nat) : Int)

/-- The candidate record `se_element` (abismal.cpp): genome position,
mismatch/edit distance, and strand/conversion flags. -/
structure se_element where
  pos : Nat
  diffs : Int
  flags : Nat
  deriving DecidableEq, Repr

/-- Comparison `se_element::is_better_than`: strictly fewer diffs. -/
def se_element.is_better_than (a b : se_element) : Bool :=
  a.diffs < b.diffs

/-- Predicate `se_element::valid_hit` (abismal.cpp): diffs strictly
below the invalid-hit threshold. -/
def se_element.valid_hit (e : se_element) (readlen : Nat) : Bool :=
  e.diffs < invalid_hit_threshold readlen

/-- Predicate `se_element::valid` (abismal.cpp): a valid hit whose
diffs are also at most `valid_frac * readlen`. -/
def se_element.valid (e : se_element) (readlen : Nat) : Bool :=
  e.valid_hit readlen && decide (e.diffs ≤ valid_threshold readlen)

/-- Method `se_element::reset` (abismal.cpp): diffs back to the
invalid-hit threshold and pos to 0; the flags field is not touched. -/
def se_element.reset (e : se_element) (readlen : Nat) : se_element :=
  { e with pos := 0, diffs := invalid_hit_threshold readlen }

/-- The top-two record `se_result` (abismal.cpp). -/
structure se_result where
  best : se_element
  second_best : se_element
  deriving DecidableEq, Repr

/-- Method `se_result::update` (abismal.cpp): a candidate duplicating
the best hit's (pos, flags) is ignored; otherwise, if it beats
second_best it replaces it, and best/second_best are swapped when the
new second_best beats best. -/
def se_result.update (r : se_result) (p : Nat) (d : Int) (s : Nat) : se_result :=
  if p = r.best.pos ∧ s = r.best.flags then r
  else if (⟨p, d, s⟩ : se_element).is_better_than r.second_best then
    if (⟨p, d, s⟩ : se_element).is_better_than r.best then ⟨⟨p, d, s⟩, r.best⟩
    else ⟨r.best, ⟨p, d, s⟩⟩
  else r

/-- Method `se_result::reset` (abismal.cpp). -/
def se_result.reset (r : se_result) (readlen : Nat) : se_result :=
  ⟨r.best.reset readlen, r.second_best.reset readlen⟩

/-- A sequence of `update` calls, applied in order. -/
def se_result.run_updates (r : se_result) (us : List (Nat × Int × Nat)) : se_result :=
  us.foldl (fun a u => a.update u.1 u.2.1 u.2.2) r

/-- Best and second_best differ in (pos, flags). -/
def distinct_top (r : se_result) : Prop :=
  r.best.pos ≠ r.second_best.pos ∨ r.best.flags ≠ r.second_best.flags

/-- Count of non-N characters used by `ReadLoader::load_reads`
(abismal.cpp): `count_if(..., c != 'N')`. -/
def countNonN (r : List Char) : Nat :=
  r.countP (fun c => c ≠ 'N')

/-- The read filter in `ReadLoader::load_reads` (abismal.cpp): a read
with fewer than `min_read_length = seed::n_seed_positions + 1` non-N
characters is blanked (`line.clear()`).  `nsp` stands for
`seed::n_seed_positions`, a positive constant defined in
AbismalIndex.hpp (not under src/), kept abstract here. -/
def load_read (nsp : Nat) (r : List Char) : List Char :=
  if countNonN r < nsp + 1 then [] else r

/-- The shift count of the sensitive pass in `process_seeds`
(abismal.cpp): `readlen / n_seed_positions`, rounded up. -/
def num_shifts (nsp readlen : Nat) : Nat :=
  readlen / nsp + (if readlen % nsp ≠ 0 then 1 else 0)

/-- The shift limit of the sensitive pass in `process_seeds`
(abismal.cpp): `readlen - seed::n_seed_positions`. -/
def shift_lim (nsp readlen : Nat) : Nat :=
  readlen - nsp

/-- The concordant-pair record `pe_element` (abismal.cpp). -/
structure pe_element where
  r1 : se_element
  r2 : se_element
  deriving DecidableEq, Repr

/-- Combined distance `pe_element::diffs`. -/
def pe_element.diffs (p : pe_element) : Int :=
  p.r1.diffs + p.r2.diffs

/-- Comparison `pe_element::is_better_than`: strictly fewer combined
diffs. -/
def pe_element.is_better_than (a b : pe_element) : Bool :=
  a.diffs < b.diffs

/-- The top-two paired record `pe_result` (abismal.cpp). -/
structure pe_result where
  best : pe_element
  second_best : pe_element
  deriving DecidableEq, Repr

/-- Method `pe_result::update` (abismal.cpp): like the single-end
update but without the duplicate check; the source also returns
whether best changed, which only refreshes the reported cigars. -/
def pe_result.update (r : pe_result) (cand : pe_element) : pe_result :=
  if cand.is_better_than r.second_best then
    if cand.is_better_than r.best then ⟨cand, r.best⟩
    else ⟨r.best, cand⟩
  else r

/-- One `j2` iteration of `best_pair` (abismal.cpp), instrumented: the
list of (aligned r1 element, aligned reference end of r2, accepted
pe_element) triples for which the source calls `best.update`.
`align1`/`align2` abstract `align_read` on the fixed preads: each maps
a candidate element to its aligned element together with the
`cigar_rseq_ops` of its cigar.  The source aligns `s2` lazily at the
first valid `j1`; since the abstraction is a function of `j2` alone,
computing it up front yields the same values. -/
def mate_candidates_for (swap_ends : Bool)
    (align1 align2 : se_element → se_element × Nat)
    (readlen1 readlen2 min_dist max_dist : Nat)
    (res1 : List se_element) (j2 : se_element) :
    List (se_element × Nat × pe_element) :=
  if j2.valid_hit readlen2 then
    let unaligned_lim := j2.pos + readlen2
    let s2a := (align2 j2).1
    let aligned_lim := s2a.pos + (align2 j2).2
    ((res1.dropWhile (fun e => e.pos + max_dist < unaligned_lim)).takeWhile
        (fun e => e.pos + min_dist ≤ unaligned_lim)).filterMap
      (fun j1 =>
        if j1.valid_hit readlen1 then
          let s1a := (align1 j1).1
          if aligned_lim ≤ s1a.pos + max_dist ∧
              s1a.pos + min_dist ≤ aligned_lim then
            some (s1a, aligned_lim,
              if swap_ends then pe_element.mk s2a s1a
              else pe_element.mk s1a s2a)
          else none
        else none)
  else []

/-- All acceptance events of `best_pair` (abismal.cpp), in order:
the outer loop runs over the second result list. -/
def mate_candidates (swap_ends : Bool)
    (align1 align2 : se_element → se_element × Nat)
    (readlen1 readlen2 min_dist max_dist : Nat)
    (res1 res2 : List se_element) : List (se_element × Nat × pe_element) :=
  res2.flatMap (mate_candidates_for swap_ends align1 align2 readlen1
    readlen2 min_dist max_dist res1)

/-- The `pe_result` state produced by `best_pair` (abismal.cpp): the
fold of `pe_result::update` over the accepted candidates.  Candidate
generation never reads the `pe_result` state in the source, so the
loop nest factors into generation followed by this fold. -/
def best_pair (swap_ends : Bool)
    (align1 align2 : se_element → se_element × Nat)
    (readlen1 readlen2 min_dist max_dist : Nat)
    (res1 res2 : List se_element) (best : pe_result) : pe_result :=
  (mate_candidates swap_ends align1 align2 readlen1 readlen2 min_dist
      max_dist res1 res2).foldl (fun b x => b.update x.2.2) best

/-! Embedding of the banded local aligner `AbismalAlign::align`
(AbismalAlign.hpp).  The match/mismatch scoring function `scr` and the
indel penalty are template parameters of `AbismalAlign` in the source
and stay parameters here; the genome is a function from absolute
position to 4-bit base code.  A table row is a pair of the score row
and the traceback row, each `bw` cells wide. -/

/-- Band half-width `AbismalAlign::max_off_diag`. -/
def max_off_diag : Nat := 2

/-- Bandwidth `bw = 2 * max_off_diag + 1` (AbismalAlign constructor). -/
def bw : Nat := 2 * max_off_diag + 1

/-- Modelled from the spec: `mismatch_score` (abismal.cpp) indexes
`simple_local_alignment::score_lookup`, which is not under src/; per
spec §4.5 and the `edit_distance` comment this is the +1 / −1 family:
+1 on a match (`the_comp` false), −1 on a mismatch. -/
def mismatch_score (q_base t_base : Nat) : Int :=
  if the_comp q_base t_base then -1 else 1

/-- Modelled from the spec: `simple_local_alignment::indel` (not
under src/) is −1 in the 1 / −1 / −1 scoring family of §4.5. -/
def indel_penalty : Int := -1

/-- Start of the banded reference window (`t_beg` in `align`). -/
def tBeg (t_pos : Nat) : Nat :=
  if (bw - 1) / 2 < t_pos then t_pos - (bw - 1) / 2 else 0

/-- First in-band column of row `i` (`left` in `align`). -/
def leftOf (i : Nat) : Nat :=
  if i < bw then bw - i else 0

/-- One-past-last in-band column of row `i` (`right` in `align`),
where `t_shift = q_sz + bw`. -/
def rightOf (t_shift i : Nat) : Nat :=
  min bw (t_shift - i)

/-- Conditional cell write shared by the three DP passes
(`from_diag`, `from_above`, `from_left`): score and traceback arrow
are written together when the score improves the cell. -/
def updCell (st : List Int × List Char) (j : Nat) (sc : Int)
    (sym : Char) : List Int × List Char :=
  if st.1.getD j 0 < sc then (st.1.set j sc, st.2.set j sym) else st

/-- The `from_diag` pass on row `i`: each in-band cell may take the
diagonal predecessor (previous row, same column) plus the score of
the query base against the row's reference base; the query offset at
column `left` is `i − bw` when `i > bw` and 0 otherwise. -/
def fromDiag (scr : Nat → Nat → Int) (q : List Nat) (refBase : Nat)
    (t_shift i : Nat) (prev : List Int)
    (st : List Int × List Char) : List Int × List Char :=
  (List.range' (leftOf i) (rightOf t_shift i - leftOf i)).foldl
    (fun st j =>
      updCell st j
        (scr (q.getD ((if bw < i then i - bw else 0) + (j - leftOf i)) 0)
            refBase + prev.getD j 0) 'M')
    st

/-- The `from_above` pass on row `i`: columns `left` to `right − 2`
may take the upper predecessor (previous row, next column) plus the
indel penalty; the arrow is `D` (deletion, consumes reference). -/
def fromAbove (indel : Int) (t_shift i : Nat) (prev : List Int)
    (st : List Int × List Char) : List Int × List Char :=
  (List.range' (leftOf i) (rightOf t_shift i - 1 - leftOf i)).foldl
    (fun st j => updCell st j (prev.getD (j + 1) 0 + indel) 'D')
    st

/-- The `from_left` pass on row `i`: columns `left + 1` to `right − 1`
may take the left neighbour of the same, already-updated row plus the
indel penalty; the arrow is `I` (insertion, consumes query). -/
def fromLeft (indel : Int) (t_shift i : Nat)
    (st : List Int × List Char) : List Int × List Char :=
  (List.range' (leftOf i + 1) (rightOf t_shift i - (leftOf i + 1))).foldl
    (fun st j => updCell st j (st.1.getD (j - 1) 0 + indel) 'I')
    st

/-- One row of the banded fill: the three passes over a zeroed row,
exactly as the loop body of `align` applies them. -/
def fillRow (scr : Nat → Nat → Int) (indel : Int) (q : List Nat)
    (refBase : Nat) (t_shift i : Nat) (prev : List Int) :
    List Int × List Char :=
  fromLeft indel t_shift i
    (fromAbove indel t_shift i prev
      (fromDiag scr q refBase t_shift i prev
        (List.replicate bw 0, List.replicate bw ' ')))

/-- Rows `i, i+1, …` of the fill (`steps` of them), each using the
previous row's scores; row `i` reads reference base `t_beg + i − 1`. -/
def buildRows (scr : Nat → Nat → Int) (indel : Int) (q : List Nat)
    (g : Nat → Nat) (t_beg t_shift : Nat) :
    Nat → Nat → List Int → List (List Int × List Char)
  | _, 0, _ => []
  | i, steps + 1, prev =>
    (fillRow scr indel q (g (t_beg + i - 1)) t_shift i prev) ::
      buildRows scr indel q g t_beg t_shift (i + 1) steps
        (fillRow scr indel q (g (t_beg + i - 1)) t_shift i prev).1

/-- The filled DP table of `align`: the zero row 0 followed by rows
`1 … t_lim − 1`, with `t_lim = min (q_sz + bw) (t_sz − t_beg)`.  The
source's table has `q_sz_max + bw` zero-initialized rows of which only
these are ever written; the extra zero rows cannot host the maximum
unless the whole table is zero, in which case both give cell (0,0). -/
def alignTable (scr : Nat → Nat → Int) (indel : Int) (q : List Nat)
    (g : Nat → Nat) (t_sz t_pos : Nat) : List (List Int × List Char) :=
  (List.replicate bw (0 : Int), List.replicate bw (' ' : Char)) ::
    buildRows scr indel q g (tBeg t_pos) (q.length + bw) 1
      (min (q.length + bw) (t_sz - tBeg t_pos) - 1)
      (List.replicate bw 0)

/-- First maximal element of a flat list, as (index, value);
`argmaxAux l i bi bv` scans `l` whose head sits at index `i`, with
current best value `bv` at index `bi` (`std::max_element` keeps the
first maximum, so only strictly greater values replace it). -/
def argmaxAux : List Int → Nat → Nat → Int → Nat × Int
  | [], _, bi, bv => (bi, bv)
  | x :: xs, i, bi, bv =>
    if bv < x then argmaxAux xs (i + 1) i x else argmaxAux xs (i + 1) bi bv

/-- `std::max_element` over a flat row-major table
(`get_best_score` in AbismalAlign.hpp). -/
def argmaxIdx : List Int → Nat × Int
  | [] => (0, 0)
  | x :: xs => argmaxAux xs 1 0 x

/-- The best cell of the filled table: flat row-major index and
value; `align` divides the index by the row width `bw` to obtain
`the_row` and `the_col`. -/
def align_best_cell (scr : Nat → Nat → Int) (indel : Int) (q : List Nat)
    (g : Nat → Nat) (t_sz t_pos : Nat) : Nat × Int :=
  argmaxIdx (((alignTable scr indel q g t_sz t_pos).map Prod.fst).flatten)

/-- The traceback walk of `get_traceback` (AbismalAlign.hpp): while
the current cell's score is positive, emit its arrow and step to the
predecessor — `D` moves up-right, `I` moves left, anything else moves
up.  `fuel` bounds the recursion; `align` passes `row·bw + col + 1`,
which suffices for the walk to reach a non-positive cell
(`walkAux_stops`), so the fueled recursion computes the source's
unbounded while loop. -/
def walkAux (tab : List (List Int)) (tbk : List (List Char)) :
    Nat → Nat → Nat → List Char × Nat × Nat
  | 0, row, col => ([], row, col)
  | fuel + 1, row, col =>
    if 0 < (tab.getD row []).getD col 0 then
      if (tbk.getD row []).getD col ' ' = 'D' then
        ((tbk.getD row []).getD col ' ' ::
            (walkAux tab tbk fuel (row - 1) (col + 1)).1,
          (walkAux tab tbk fuel (row - 1) (col + 1)).2)
      else if (tbk.getD row []).getD col ' ' = 'I' then
        ((tbk.getD row []).getD col ' ' ::
            (walkAux tab tbk fuel row (col - 1)).1,
          (walkAux tab tbk fuel row (col - 1)).2)
      else
        ((tbk.getD row []).getD col ' ' ::
            (walkAux tab tbk fuel (row - 1) col).1,
          (walkAux tab tbk fuel (row - 1) col).2)
    else ([], row, col)

/-- Unsigned `size_t` subtraction: the soft-clip lengths in `align`
are computed in `size_t` arithmetic, which wraps modulo 2^64 (the
operands arising here never exceed 2^64). -/
def sizeSub (a b : Nat) : Nat :=
  if b ≤ a then a - b else 2 ^ 64 - (b - a)

/-- The function `AbismalAlign::align` (AbismalAlign.hpp): fill the
banded table, take the first maximal cell, soft-clip the query tail
below it, trace back, soft-clip the head, and reverse the scratch into
forward orientation.  Returns (uncompressed operation list, updated
reference start `t_pos`, aligned query length `len`, score). -/
def align (scr : Nat → Nat → Int) (indel : Int) (q : List Nat)
    (g : Nat → Nat) (t_sz t_pos : Nat) :
    List Char × Nat × Nat × Int :=
  let rows := alignTable scr indel q g t_sz t_pos
  let am := align_best_cell scr indel q g t_sz t_pos
  let w := walkAux (rows.map Prod.fst) (rows.map Prod.snd)
      (am.1 / bw * bw + am.1 % bw + 1) (am.1 / bw) (am.1 % bw)
  let soft_clip_bottom :=
    sizeSub (q.length + (bw - 1)) (am.1 / bw + am.1 % bw)
  let soft_clip_top := sizeSub (w.2.1 + w.2.2) (bw - 1)
  ((List.replicate soft_clip_bottom 'S' ++ w.1 ++
      List.replicate soft_clip_top 'S').reverse,
    tBeg t_pos + w.2.1,
    sizeSub (sizeSub q.length soft_clip_bottom) soft_clip_top,
    am.2)

/-- Run-length compression of the scratch operations into the CIGAR
string (`compress_cigar` of cigar_utils, external to src/): adjacent
equal operations merge into one (count, op) pair. -/
def compress_cigar : List Char → List (Nat × Char)
  | [] => []
  | c :: cs =>
    match compress_cigar cs with
    | [] => [(1, c)]
    | (n, d) :: rest =>
      if c = d then (n + 1, d) :: rest else (1, c) :: (n, d) :: rest

/-- Total length of the operations of kind `s` in a compressed CIGAR. -/
def op_total (cig : List (Nat × Char)) (s : Char) : Nat :=
  ((cig.filter (fun p => p.2 = s)).map Prod.fst).sum

/-- Cell-level invariant of the filled table: a positive score lies in
the band of a filled row (so not in row 0) and carries an arrow whose
predecessor is again a valid cell. -/
def cellsGood (t_shift : Nat) (tab : List (List Int))
    (tbk : List (List Char)) : Prop :=
  ∀ i j, 0 < (tab.getD i []).getD j 0 →
    1 ≤ i ∧ leftOf i ≤ j ∧ j < rightOf t_shift i ∧
    ((tbk.getD i []).getD j ' ' = 'M' ∨ (tbk.getD i []).getD j ' ' = 'I' ∨
      (tbk.getD i []).getD j ' ' = 'D') ∧
    ((tbk.getD i []).getD j ' ' = 'D' → j + 1 < rightOf t_shift i) ∧
    ((tbk.getD i []).getD j ' ' = 'I' → leftOf i + 1 ≤ j)

/-- Row-level invariant maintained by the fill: correct widths,
non-negative scores, and the cell-level facts for positive scores. -/
def goodRow (t_shift i : Nat) (st : List Int × List Char) : Prop :=
  st.1.length = bw ∧ st.2.length = bw ∧
  ∀ j, 0 ≤ st.1.getD j 0 ∧
    (0 < st.1.getD j 0 →
      1 ≤ i ∧ leftOf i ≤ j ∧ j < rightOf t_shift i ∧
      (st.2.getD j ' ' = 'M' ∨ st.2.getD j ' ' = 'I' ∨
        st.2.getD j ' ' = 'D') ∧
      (st.2.getD j ' ' = 'D' → j + 1 < rightOf t_shift i) ∧
      (st.2.getD j ' ' = 'I' → leftOf i + 1 ≤ j))

end Abismal

namespace Abismal

/-! Theorems for the encoder, comparator and scalar-parameter claims. -/

/-- C1: for every ASCII base among A, C, G, T, the T-rich read
encoding matches (AND is non-zero against) exactly the reference base
itself or its bisulfite partner — read T matches reference T and C —
and the A-rich encoding matches exactly the base itself or, for read
A, reference A and G; mismatch is exactly `the_comp`, the predicate
`(read_base & ref_base) == 0`. -/
theorem encode_partner_matrix :
    (∀ b ∈ dnaBases, ∀ r ∈ dnaBases,
      (the_comp (encode_base_t_rich b) (encode_ref r) = false ↔
        (r = b ∨ (b = 84 ∧ r = 67)))) ∧
    (∀ b ∈ dnaBases, ∀ r ∈ dnaBases,
      (the_comp (encode_base_a_rich b) (encode_ref r) = false ↔
        (r = b ∨ (b = 65 ∧ r = 71)))) := by
  decide

/-- Witness for C1 at the conversion pair: read T (84) against
reference C (67) under the T-rich encoding is a match. -/
theorem encode_partner_matrix_witness :
    the_comp (encode_base_t_rich 84) (encode_ref 67) = false :=
  (encode_partner_matrix.1 84 (by decide) 67 (by decide)).mpr
    (Or.inr ⟨rfl, rfl⟩)

/-- Accumulator-generalized characterization of the `full_compare`
loop: starting from `0 ≤ d ≤ cutoff`, the loop returns the cutoff if
the mismatches reach it and the full accumulated count otherwise. -/
theorem full_compare_go_spec (cutoff : Int) :
    ∀ (rs gs : List Nat) (d : Int), 0 ≤ d → d ≤ cutoff →
      full_compare_go cutoff d rs gs =
        min cutoff (d + (mismatch_count rs gs : Int))
  | [], gs, d, _, hdc => by
    simp [full_compare_go, mismatch_count, min_eq_right, hdc]
  | r :: rs, [], d, _, hdc => by
    simp [full_compare_go, mismatch_count, min_eq_right, hdc]
  | r :: rs, g :: gs, d, hd0, hdc => by
    have hunf : full_compare_go cutoff d (r :: rs) (g :: gs) =
        if d = cutoff then d
        else full_compare_go cutoff (d + mismatch_lookup (r &&& g)) rs gs := rfl
    rw [hunf]
    by_cases hdc' : d = cutoff
    · rw [if_pos hdc']
      have hc : (0 : Int) ≤ (mismatch_count (r :: rs) (g :: gs) : Int) :=
        Int.ofNat_nonneg _
      omega
    · rw [if_neg hdc']
      have hstep0 : 0 ≤ mismatch_lookup (r &&& g) := by
        unfold mismatch_lookup; split <;> omega
      have hstep1 : mismatch_lookup (r &&& g) ≤ 1 := by
        unfold mismatch_lookup; split <;> omega
      have hrec := full_compare_go_spec cutoff rs gs
        (d + mismatch_lookup (r &&& g)) (by omega) (by omega)
      rw [hrec]
      have hcount : (mismatch_count (r :: rs) (g :: gs) : Int) =
          mismatch_lookup (r &&& g) + (mismatch_count rs gs : Int) := by
        unfold mismatch_count mismatch_lookup
        rw [List.zip_cons_cons, List.countP_cons]
        by_cases hz : r &&& g = 0 <;> simp [hz] <;> push_cast <;> ring
      rw [hcount]
      congr 1
      ring

/-- C2: for every cutoff ≥ 0, `full_compare` returns the minimum of
the cutoff and the total number of positions where the read byte AND
the genome byte is zero: it accumulates one mismatch per such
position, stops as soon as the count reaches the cutoff or the read is
exhausted, and in particular never exceeds the cutoff. -/
theorem full_compare_spec (cutoff : Int) (read genome : List Nat)
    (h : 0 ≤ cutoff) :
    full_compare cutoff read genome =
      min cutoff (mismatch_count read genome : Int) := by
  unfold full_compare
  rw [full_compare_go_spec cutoff read genome 0 le_rfl h]
  simp

/-- Witness for C2 at a concrete input: cutoff 2, read `[1,2,8]`,
genome `[8,2,8]` has exactly one mismatching position. -/
theorem full_compare_spec_witness :
    (0 : Int) ≤ 2 ∧
      full_compare 2 [1, 2, 8] [8, 2, 8] =
        min 2 (mismatch_count [1, 2, 8] [8, 2, 8] : Int) :=
  ⟨by decide, full_compare_spec 2 [1, 2, 8] [8, 2, 8] (by decide)⟩

/-- C9: with the `-c` flag at 0 and a genome of 1000 bases in default
mode, the code selects `min(genome_size * 1e-5, 10^6) = 0` candidates:
the `max` against `min_max_candidates = 100` computed on the previous
line is immediately overwritten, so the result is not clamped from
below as the spec intends. -/
theorem select_max_candidates_no_lower_clamp :
    select_max_candidates false 1000 = 0 := by
  decide

/-- Absorption for the match-anything padding: OR-ing a mask in and
AND-ing with the same mask returns the mask. -/
theorem lor_and_self (a m : Nat) : (a ||| m) &&& m = m := by
  apply Nat.eq_of_testBit_eq
  intro i
  rw [Nat.testBit_land, Nat.testBit_lor]
  cases Nat.testBit m i <;> simp

/-- The packing loop produces one byte per two bases, rounded up. -/
theorem pack_bases_length : ∀ l : List Nat,
    (pack_bases l).length = (l.length + 1) / 2
  | [] => by simp [pack_bases]
  | [_] => by simp [pack_bases]
  | _ :: _ :: rest => by
    simp only [pack_bases, List.length_cons]
    rw [pack_bases_length rest]
    omega

/-- When the packed base count is odd, the final byte carries the
match-anything high nibble 0xF0. -/
theorem pack_bases_getLast?_odd : ∀ l : List Nat, l.length % 2 = 1 →
    ∃ x, (pack_bases l).getLast? = some x ∧ x &&& 0xF0 = 0xF0
  | [], h => by simp at h
  | [a], _ => ⟨a ||| 0xF0, rfl, lor_and_self a 0xF0⟩
  | a :: b :: rest, h => by
    have hrest : rest.length % 2 = 1 := by
      simp only [List.length_cons] at h
      omega
    obtain ⟨x, hx, hx2⟩ := pack_bases_getLast?_odd rest hrest
    refine ⟨x, ?_, hx2⟩
    cases hpr : pack_bases rest with
    | nil => rw [hpr] at hx; simp at hx
    | cons z zs =>
      rw [hpr] at hx
      simp only [pack_bases, hpr]
      rw [List.getLast?_cons_cons]
      exact hx

/-- C8 counterexample: on a read of one encoded base the odd form has
`1/2 + 1 = 1` byte, not `⌈1/2⌉ + 1 = 2` as the claim states. -/
theorem prep_for_seeds_odd_length_counterexample :
    (prep_for_seeds [1]).2.length ≠ (1 + 1) / 2 + 1 := by
  decide

/-- C8 (amended): for every non-empty encoded read of length n,
`prep_for_seeds` yields an even form of exactly ⌈n/2⌉ bytes and an odd
form of exactly ⌊n/2⌋ + 1 bytes (which is ⌈n/2⌉ + 1 only for even n);
the odd form's first byte carries the match-anything nibble 0x0F, the
even form's last byte carries the padding nibble 0xF0 when n is odd,
the odd form's last byte carries it when n is even, and a match-
anything nibble has non-zero AND against every non-N genome nibble. -/
theorem prep_for_seeds_spec (p : List Nat) (h : p ≠ []) :
    (prep_for_seeds p).1.length = (p.length + 1) / 2 ∧
    (prep_for_seeds p).2.length = p.length / 2 + 1 ∧
    ((prep_for_seeds p).2.headD 0) &&& 0x0F = 0x0F ∧
    (p.length % 2 = 1 → ((prep_for_seeds p).1.getLastD 0) &&& 0xF0 = 0xF0) ∧
    (p.length % 2 = 0 → ((prep_for_seeds p).2.getLastD 0) &&& 0xF0 = 0xF0) ∧
    (∀ g < 16, 0 < g → 0x0F &&& g ≠ 0 ∧ 0xF0 &&& (g <<< 4) ≠ 0) := by
  have hlen : 1 ≤ p.length := List.length_pos.mpr h
  refine ⟨?_, ?_, ?_, ?_, ?_, by decide⟩
  · exact pack_bases_length p
  · simp only [prep_for_seeds, List.length_cons]
    rw [pack_bases_length p.tail, List.length_tail]
    omega
  · simp only [prep_for_seeds, List.headD_cons]
    rw [Nat.lor_comm]
    exact lor_and_self _ 0x0F
  · intro hodd
    obtain ⟨x, hx, hx2⟩ := pack_bases_getLast?_odd p hodd
    simp only [prep_for_seeds]
    rw [List.getLastD_eq_getLast?, hx]
    exact hx2
  · intro heven
    have htail : p.tail.length % 2 = 1 := by
      rw [List.length_tail]
      omega
    obtain ⟨x, hx, hx2⟩ := pack_bases_getLast?_odd p.tail htail
    simp only [prep_for_seeds]
    cases hpr : pack_bases p.tail with
    | nil => rw [hpr] at hx; simp at hx
    | cons z zs =>
      rw [hpr] at hx
      rw [List.getLastD_eq_getLast?, List.getLast?_cons_cons, hx]
      exact hx2

/-- Witness for C8 at the two-base read `[1, 2]`. -/
theorem prep_for_seeds_spec_witness :
    (([1, 2] : List Nat) ≠ []) ∧
    ((prep_for_seeds [1, 2]).1.length = (2 + 1) / 2 ∧
     (prep_for_seeds [1, 2]).2.length = 2 / 2 + 1 ∧
     ((prep_for_seeds [1, 2]).2.headD 0) &&& 0x0F = 0x0F ∧
     (2 % 2 = 1 → ((prep_for_seeds [1, 2]).1.getLastD 0) &&& 0xF0 = 0xF0) ∧
     (2 % 2 = 0 → ((prep_for_seeds [1, 2]).2.getLastD 0) &&& 0xF0 = 0xF0) ∧
     (∀ g < 16, 0 < g → 0x0F &&& g ≠ 0 ∧ 0xF0 &&& (g <<< 4) ≠ 0)) :=
  ⟨by decide, prep_for_seeds_spec [1, 2] (by decide)⟩

/-- C6 counterexample: at read length 10 and diffs 4 the claim's
criterion `diffs ≤ invalid_hit_frac · read_len = 4` holds, yet
`se_element::valid_hit` is false because the code compares with strict
inequality. -/
theorem valid_hit_counterexample :
    se_element.valid_hit ⟨0, 4, 0⟩ 10 = false ∧ (4 : ℚ) ≤ (2 / 5 : ℚ) * 10 := by
  constructor
  · decide
  · norm_num

/-- C6 (amended): `valid_hit` holds iff diffs are strictly below the
floored threshold 0.4·read_len — equivalently 5·(diffs+1) ≤ 2·read_len
— and `valid` holds iff additionally diffs ≤ 0.1·read_len, i.e.
10·diffs ≤ read_len. -/
theorem valid_iff (e : se_element) (len : Nat) :
    (e.valid_hit len = true ↔ 5 * (e.diffs + 1) ≤ 2 * (len : Int)) ∧
    (e.valid len = true ↔
      (5 * (e.diffs + 1) ≤ 2 * (len : Int) ∧ 10 * e.diffs ≤ (len : Int))) := by
  unfold se_element.valid se_element.valid_hit invalid_hit_threshold valid_threshold
  constructor
  · simp only [decide_eq_true_eq]
    omega
  · simp only [Bool.and_eq_true, decide_eq_true_eq]
    omega

/-- A single `se_result::update` keeps best at most second_best. -/
theorem update_keeps_order (r : se_result) (p : Nat) (d : Int) (s : Nat)
    (h : r.best.diffs ≤ r.second_best.diffs) :
    (r.update p d s).best.diffs ≤ (r.update p d s).second_best.diffs := by
  unfold se_result.update
  split
  · exact h
  · split
    · split
      all_goals simp_all [se_element.is_better_than]
      all_goals omega
    · exact h

/-- A sequence of updates keeps best at most second_best. -/
theorem run_updates_keeps_order (r : se_result)
    (us : List (Nat × Int × Nat))
    (h : r.best.diffs ≤ r.second_best.diffs) :
    (r.run_updates us).best.diffs ≤ (r.run_updates us).second_best.diffs := by
  induction us generalizing r with
  | nil => exact h
  | cons u us ih => exact ih _ (update_keeps_order _ _ _ _ h)

/-- C4: after a reset, every sequence of `se_result::update` calls
leaves `best.diffs ≤ second_best.diffs`: a candidate replaces
second_best only with strictly fewer diffs, and the pair is swapped
when the new second_best beats best. -/
theorem best_le_second_best (r : se_result) (len : Nat)
    (us : List (Nat × Int × Nat)) :
    ((r.reset len).run_updates us).best.diffs ≤
      ((r.reset len).run_updates us).second_best.diffs :=
  run_updates_keeps_order _ us (by simp [se_result.reset, se_element.reset])

/-- One update preserves distinctness of (pos, flags) between best and
second_best. -/
theorem update_keeps_distinct (st : se_result) (p : Nat) (d : Int) (s : Nat)
    (h : distinct_top st) : distinct_top (st.update p d s) := by
  unfold se_result.update
  split
  · exact h
  · split
    · split
      all_goals simp_all [distinct_top, se_element.is_better_than]
      all_goals omega
    · exact h

/-- Starting from a reset state, one update either establishes
distinctness or leaves the reset state unchanged. -/
theorem update_from_reset (r0 : se_result) (len : Nat) (p : Nat) (d : Int)
    (s : Nat) :
    distinct_top ((r0.reset len).update p d s) ∨
      (r0.reset len).update p d s = r0.reset len := by
  unfold se_result.update
  split
  · right; rfl
  · split
    · split
      · left
        simp_all [distinct_top, se_element.is_better_than, se_result.reset,
          se_element.reset]
        omega
      · exfalso
        simp_all [se_element.is_better_than, se_result.reset,
          se_element.reset]
    · right; rfl

/-- Invariant for C7: after any update sequence from a reset, best and
second_best have distinct (pos, flags) unless the result is still the
reset state itself. -/
theorem run_updates_distinct_aux (r0 : se_result) (len : Nat) :
    ∀ (us : List (Nat × Int × Nat)) (st : se_result),
      (distinct_top st ∨ st = r0.reset len) →
      (distinct_top (st.run_updates us) ∨
        st.run_updates us = r0.reset len)
  | [], st, h => h
  | u :: us, st, h => by
    have hstep : distinct_top (st.update u.1 u.2.1 u.2.2) ∨
        st.update u.1 u.2.1 u.2.2 = r0.reset len := by
      rcases h with hd | rfl
      · exact Or.inl (update_keeps_distinct st u.1 u.2.1 u.2.2 hd)
      · exact update_from_reset r0 len u.1 u.2.1 u.2.2
    exact run_updates_distinct_aux r0 len us _ hstep

/-- C7 counterexample: right after a reset — the empty update sequence
— best and second_best share (pos, flags) = (0, 0), so the claim as
stated fails. -/
theorem reset_shares_pos_flags :
    ¬ distinct_top
      ((se_result.mk ⟨0, 0, 0⟩ ⟨0, 0, 0⟩).reset 10 |>.run_updates []) := by
  simp [distinct_top, se_result.run_updates, se_result.reset,
    se_element.reset]

/-- C7 (amended): a candidate duplicating the current best's
(pos, flags) is ignored by `se_result::update`, and after any update
sequence following a reset, best and second_best differ in
(pos, flags) unless the state is still exactly the reset state (where
both share pos 0 and their previous flags). -/
theorem dedup_invariant (r : se_result) (len : Nat)
    (us : List (Nat × Int × Nat)) (p : Nat) (d : Int) (s : Nat)
    (hdup : p = r.best.pos ∧ s = r.best.flags) :
    r.update p d s = r ∧
    (distinct_top ((r.reset len).run_updates us) ∨
      (r.reset len).run_updates us = r.reset len) := by
  constructor
  · unfold se_result.update
    rw [if_pos hdup]
  · exact run_updates_distinct_aux r len us _ (Or.inr rfl)

/-- Witness for C7's amended statement at a concrete state, update
sequence and duplicate candidate. -/
theorem dedup_invariant_witness :
    (se_result.mk ⟨3, 2, 1⟩ ⟨5, 4, 0⟩).update 3 0 1 =
      se_result.mk ⟨3, 2, 1⟩ ⟨5, 4, 0⟩ ∧
    (distinct_top
        (((se_result.mk ⟨3, 2, 1⟩ ⟨5, 4, 0⟩).reset 10).run_updates
          [(7, 1, 2)]) ∨
      ((se_result.mk ⟨3, 2, 1⟩ ⟨5, 4, 0⟩).reset 10).run_updates [(7, 1, 2)] =
        (se_result.mk ⟨3, 2, 1⟩ ⟨5, 4, 0⟩).reset 10) :=
  dedup_invariant (se_result.mk ⟨3, 2, 1⟩ ⟨5, 4, 0⟩) 10 [(7, 1, 2)] 3 0 1
    ⟨rfl, rfl⟩

/-- C10: a read that survives the `ReadLoader` filter (is not blanked)
has length at least `n_seed_positions + 1`; consequently, in the
sensitive pass of `process_seeds`, `num_shifts ≥ 2` (so the divisor
`num_shifts - 1` is non-zero) and `shift_lim = readlen -
n_seed_positions` does not underflow. -/
theorem loaded_read_length_spec (nsp : Nat) (r : List Char)
    (hnsp : 1 ≤ nsp) (h : load_read nsp r ≠ []) :
    nsp + 1 ≤ (load_read nsp r).length ∧
    2 ≤ num_shifts nsp (load_read nsp r).length ∧
    shift_lim nsp (load_read nsp r).length + nsp =
      (load_read nsp r).length := by
  have hkeep : ¬ countNonN r < nsp + 1 := by
    intro hc
    exact h (by unfold load_read; rw [if_pos hc])
  have hload : load_read nsp r = r := by
    unfold load_read
    rw [if_neg hkeep]
  rw [hload]
  have hcount : countNonN r ≤ r.length := List.countP_le_length _
  have hlen : nsp + 1 ≤ r.length := by omega
  refine ⟨hlen, ?_, ?_⟩
  · unfold num_shifts
    have hdm := Nat.div_add_mod r.length nsp
    by_cases hz : r.length % nsp = 0
    · rw [if_neg (by simp [hz])]
      simp only [add_zero]
      by_contra hq2
      have hq : r.length / nsp ≤ 1 := by omega
      have hmul : nsp * (r.length / nsp) ≤ nsp * 1 :=
        Nat.mul_le_mul_left nsp hq
      omega
    · rw [if_pos hz]
      rcases Nat.eq_zero_or_pos (r.length / nsp) with hq | hq
      · exfalso
        rw [hq, Nat.mul_zero, Nat.zero_add] at hdm
        have := Nat.mod_lt r.length (show 0 < nsp by omega)
        omega
      · omega
  · unfold shift_lim
    omega

/-- Provenance of the entries of a folded `pe_result`: best is the
initial best or one of the folded candidates; second_best is one of
the initial entries or a candidate. -/
theorem foldl_pe_update_mem (l : List (se_element × Nat × pe_element))
    (init : pe_result) :
    ((l.foldl (fun b x => b.update x.2.2) init).best = init.best ∨
      (l.foldl (fun b x => b.update x.2.2) init).best
        ∈ l.map (fun x => x.2.2)) ∧
    ((l.foldl (fun b x => b.update x.2.2) init).second_best =
        init.second_best ∨
      (l.foldl (fun b x => b.update x.2.2) init).second_best = init.best ∨
      (l.foldl (fun b x => b.update x.2.2) init).second_best
        ∈ l.map (fun x => x.2.2)) := by
  induction l generalizing init with
  | nil => simp
  | cons a l ih =>
    simp only [List.foldl_cons, List.map_cons]
    have hb : (init.update a.2.2).best = init.best ∨
        (init.update a.2.2).best = a.2.2 := by
      unfold pe_result.update
      split
      · split
        · right; rfl
        · left; rfl
      · left; rfl
    have hs : (init.update a.2.2).second_best = init.second_best ∨
        (init.update a.2.2).second_best = init.best ∨
        (init.update a.2.2).second_best = a.2.2 := by
      unfold pe_result.update
      split
      · split
        · right; left; rfl
        · right; right; rfl
      · left; rfl
    obtain ⟨ihb, ihs⟩ := ih (init.update a.2.2)
    constructor
    · rcases ihb with h | h
      · rw [h]
        rcases hb with h2 | h2
        · exact Or.inl h2
        · exact Or.inr (by simp [h2])
      · exact Or.inr (by simp [h])
    · rcases ihs with h | h | h
      · rw [h]
        rcases hs with h2 | h2 | h2
        · exact Or.inl h2
        · exact Or.inr (Or.inl h2)
        · exact Or.inr (Or.inr (by simp [h2]))
      · rw [h]
        rcases hb with h2 | h2
        · exact Or.inr (Or.inl h2)
        · exact Or.inr (Or.inr (by simp [h2]))
      · exact Or.inr (Or.inr (by simp [h]))

/-- C5: every pair accepted into `pe_result` by `best_pair` satisfies
the fragment-length window: writing `s1` for the aligned candidate of
the first result list and `aligned_lim` for the aligned reference end
of the second mate, `s1.pos + min_dist ≤ aligned_lim ≤ s1.pos +
max_dist` (defaults 32 and 3000); moreover the resulting best and
second_best entries are either the initial entries or accepted
candidates, so every newly stored pair passed the window check. -/
theorem best_pair_window (swap_ends : Bool)
    (align1 align2 : se_element → se_element × Nat)
    (rl1 rl2 md Md : Nat) (res1 res2 : List se_element)
    (init : pe_result) :
    (∀ x ∈ mate_candidates swap_ends align1 align2 rl1 rl2 md Md res1 res2,
      x.1.pos + md ≤ x.2.1 ∧ x.2.1 ≤ x.1.pos + Md) ∧
    ((best_pair swap_ends align1 align2 rl1 rl2 md Md res1 res2 init).best
        = init.best ∨
      (best_pair swap_ends align1 align2 rl1 rl2 md Md res1 res2 init).best
        ∈ (mate_candidates swap_ends align1 align2 rl1 rl2 md Md res1
            res2).map (fun x => x.2.2)) ∧
    ((best_pair swap_ends align1 align2 rl1 rl2 md Md res1 res2
          init).second_best = init.second_best ∨
      (best_pair swap_ends align1 align2 rl1 rl2 md Md res1 res2
          init).second_best = init.best ∨
      (best_pair swap_ends align1 align2 rl1 rl2 md Md res1 res2
          init).second_best
        ∈ (mate_candidates swap_ends align1 align2 rl1 rl2 md Md res1
            res2).map (fun x => x.2.2)) := by
  refine ⟨?_, ?_⟩
  · intro x hx
    unfold mate_candidates at hx
    rw [List.mem_flatMap] at hx
    obtain ⟨j2, _, hx⟩ := hx
    simp only [mate_candidates_for] at hx
    split at hx
    · rw [List.mem_filterMap] at hx
      obtain ⟨j1, _, hj1⟩ := hx
      split at hj1
      · split at hj1
        next hwin =>
          injection hj1 with h
          subst h
          exact ⟨hwin.2, hwin.1⟩
        next => exact absurd hj1 (by simp)
      · exact absurd hj1 (by simp)
    · simp at hx
  · unfold best_pair
    exact foldl_pe_update_mem _ init

/-- Witness for C5 at a concrete mating configuration: one r2
candidate at position 100 with a 50-base aligned span, one r1
candidate at position 70, window [32, 3000]. -/
theorem best_pair_window_witness :
    (se_element.mk 70 0 0).pos + 32 ≤ 150 ∧
      (150 : Nat) ≤ (se_element.mk 70 0 0).pos + 3000 :=
  (best_pair_window false (fun e => (e, 50)) (fun e => (e, 50)) 50 50 32
      3000 [se_element.mk 70 0 0] [se_element.mk 100 0 0]
      (pe_result.mk (pe_element.mk ⟨0, 0, 0⟩ ⟨0, 0, 0⟩)
        (pe_element.mk ⟨0, 0, 0⟩ ⟨0, 0, 0⟩))).1
    (se_element.mk 70 0 0, 150,
      pe_element.mk (se_element.mk 70 0 0) (se_element.mk 100 0 0))
    (by decide)

/-- The bandwidth is five columns. -/
theorem bw_eq : bw = 5 := rfl

/-- Reading a just-written cell. -/
theorem getD_set_self {α : Type} (l : List α) (j : Nat) (a d : α)
    (h : j < l.length) : (l.set j a).getD j d = a := by
  rw [List.getD_eq_getElem?_getD, List.getElem?_set_self h]
  rfl

/-- Reading any other cell after a write. -/
theorem getD_set_ne {α : Type} (l : List α) (i j : Nat) (a d : α)
    (h : i ≠ j) : (l.set i a).getD j d = l.getD j d := by
  rw [List.getD_eq_getElem?_getD, List.getElem?_set_ne h,
    ← List.getD_eq_getElem?_getD]

/-- Reading a constant row. -/
theorem getD_replicate {α : Type} (n j : Nat) (a d : α) :
    (List.replicate n a).getD j d = if j < n then a else d := by
  rw [List.getD_eq_getElem?_getD, List.getElem?_replicate]
  split <;> rfl

/-- The row of the band below `i` starts at least at column
`bw − i`, so an in-band cell satisfies `bw ≤ i + j`. -/
theorem bw_le_add_leftOf (i : Nat) : bw ≤ i + leftOf i := by
  unfold leftOf
  split <;> omega

/-- A conditional cell write with an in-band target and a matching
arrow preserves the row invariant. -/
theorem goodRow_updCell (t_shift i : Nat) (st : List Int × List Char)
    (j0 : Nat) (sc : Int) (sym : Char)
    (h : goodRow t_shift i st)
    (hj : 1 ≤ i ∧ leftOf i ≤ j0 ∧ j0 < rightOf t_shift i ∧
      (sym = 'M' ∨ sym = 'I' ∨ sym = 'D') ∧
      (sym = 'D' → j0 + 1 < rightOf t_shift i) ∧
      (sym = 'I' → leftOf i + 1 ≤ j0)) :
    goodRow t_shift i (updCell st j0 sc sym) := by
  obtain ⟨hl1, hl2, hcell⟩ := h
  unfold updCell
  split
  next hlt =>
    have hj0bw : j0 < bw :=
      lt_of_lt_of_le hj.2.2.1 (min_le_left _ _)
    refine ⟨by simp [hl1], by simp [hl2], ?_⟩
    intro j
    by_cases hjj : j = j0
    · subst hjj
      rw [getD_set_self _ _ _ _ (by omega), getD_set_self _ _ _ _ (by omega)]
      have h0 := (hcell j).1
      exact ⟨by omega, fun _ => ⟨hj.1, hj.2.1, hj.2.2.1, hj.2.2.2.1,
        hj.2.2.2.2.1, hj.2.2.2.2.2⟩⟩
    · rw [getD_set_ne _ _ _ _ _ (fun hh => hjj hh.symm),
        getD_set_ne _ _ _ _ _ (fun hh => hjj hh.symm)]
      exact hcell j
  next => exact ⟨hl1, hl2, hcell⟩

/-- A whole pass of conditional writes over a column range, with each
target in band and the pass's arrow matching, preserves the row
invariant (common to `from_diag`, `from_above`, `from_left`). -/
theorem goodRow_foldl_updCell (t_shift i : Nat) (sym : Char)
    (f : (List Int × List Char) → Nat → Int) :
    ∀ (lo n : Nat) (st : List Int × List Char),
      goodRow t_shift i st →
      (∀ j, lo ≤ j → j < lo + n →
        1 ≤ i ∧ leftOf i ≤ j ∧ j < rightOf t_shift i ∧
        (sym = 'M' ∨ sym = 'I' ∨ sym = 'D') ∧
        (sym = 'D' → j + 1 < rightOf t_shift i) ∧
        (sym = 'I' → leftOf i + 1 ≤ j)) →
      goodRow t_shift i
        ((List.range' lo n).foldl (fun st j => updCell st j (f st j) sym) st)
  | _, 0, st, h, _ => h
  | lo, n + 1, st, h, hall => by
    rw [List.range'_succ lo n 1]
    simp only [List.foldl_cons]
    exact goodRow_foldl_updCell t_shift i sym f (lo + 1) n _
      (goodRow_updCell t_shift i st lo (f st lo) sym h
        (hall lo le_rfl (by omega)))
      (fun j hj1 hj2 => hall j (by omega) (by omega))

/-- The zeroed scratch row satisfies the row invariant (for any row
index, in particular row 0). -/
theorem goodRow_zero (t_shift i : Nat) :
    goodRow t_shift i
      (List.replicate bw (0 : Int), List.replicate bw (' ' : Char)) := by
  refine ⟨by simp, by simp, ?_⟩
  intro j
  rw [getD_replicate]
  split <;> simp

/-- One filled row of the banded DP satisfies the row invariant. -/
theorem goodRow_fillRow (scr : Nat → Nat → Int) (indel : Int)
    (q : List Nat) (refBase : Nat) (t_shift i : Nat) (prev : List Int)
    (hi : 1 ≤ i) :
    goodRow t_shift i (fillRow scr indel q refBase t_shift i prev) := by
  unfold fillRow fromLeft fromAbove fromDiag
  apply goodRow_foldl_updCell
  · apply goodRow_foldl_updCell
    · apply goodRow_foldl_updCell
      · exact goodRow_zero t_shift i
      · intro j hj1 hj2
        exact ⟨hi, hj1, by omega, Or.inl rfl,
          fun hh => absurd hh (by decide),
          fun hh => absurd hh (by decide)⟩
    · intro j hj1 hj2
      exact ⟨hi, hj1, by omega, Or.inr (Or.inr rfl),
        fun _ => by omega,
        fun hh => absurd hh (by decide)⟩
  · intro j hj1 hj2
    exact ⟨hi, by omega, by omega, Or.inr (Or.inl rfl),
      fun hh => absurd hh (by decide),
      fun _ => by omega⟩

/-- The fill produces exactly `steps` rows. -/
theorem buildRows_length (scr : Nat → Nat → Int) (indel : Int)
    (q : List Nat) (g : Nat → Nat) (t_beg t_shift : Nat) :
    ∀ (steps i : Nat) (prev : List Int),
      (buildRows scr indel q g t_beg t_shift i steps prev).length = steps
  | 0, _, _ => rfl
  | steps + 1, i, prev => by
    simp only [buildRows, List.length_cons]
    rw [buildRows_length scr indel q g t_beg t_shift steps (i + 1) _]

/-- Every filled row satisfies the row invariant at its own index. -/
theorem buildRows_good (scr : Nat → Nat → Int) (indel : Int)
    (q : List Nat) (g : Nat → Nat) (t_beg t_shift : Nat) :
    ∀ (steps i : Nat) (prev : List Int) (k : Nat), 1 ≤ i → k < steps →
      goodRow t_shift (i + k)
        ((buildRows scr indel q g t_beg t_shift i steps prev).getD k
          ([], []))
  | 0, _, _, _, _, hk => absurd hk (by omega)
  | steps + 1, i, prev, 0, hi, _ => by
    simpa [buildRows] using
      goodRow_fillRow scr indel q (g (t_beg + i - 1)) t_shift i prev hi
  | steps + 1, i, prev, k + 1, hi, hk => by
    have h := buildRows_good scr indel q g t_beg t_shift steps (i + 1)
      (fillRow scr indel q (g (t_beg + i - 1)) t_shift i prev).1 k
      (by omega) (by omega)
    rw [show i + (k + 1) = (i + 1) + k from by omega]
    simpa [buildRows] using h

/-- Reading the score rows through the projection. -/
theorem map_fst_getD (rows : List (List Int × List Char)) (k : Nat) :
    (rows.map Prod.fst).getD k [] = (rows.getD k ([], [])).1 := by
  rw [List.getD_eq_getElem?_getD, List.getElem?_map,
    List.getD_eq_getElem?_getD]
  cases rows[k]? <;> rfl

/-- Reading the traceback rows through the projection. -/
theorem map_snd_getD (rows : List (List Int × List Char)) (k : Nat) :
    (rows.map Prod.snd).getD k [] = (rows.getD k ([], [])).2 := by
  rw [List.getD_eq_getElem?_getD, List.getElem?_map,
    List.getD_eq_getElem?_getD]
  cases rows[k]? <;> rfl

/-- Every row of the filled table satisfies the row invariant at its
own index. -/
theorem alignTable_getD_good (scr : Nat → Nat → Int) (indel : Int)
    (q : List Nat) (g : Nat → Nat) (t_sz t_pos : Nat) (k : Nat)
    (hk : k < (alignTable scr indel q g t_sz t_pos).length) :
    goodRow (q.length + bw) k
      ((alignTable scr indel q g t_sz t_pos).getD k ([], [])) := by
  rcases Nat.eq_zero_or_pos k with rfl | hpos
  · simpa [alignTable] using goodRow_zero (q.length + bw) 0
  · obtain ⟨k', rfl⟩ : ∃ k', k = k' + 1 := ⟨k - 1, by omega⟩
    have hlen : (alignTable scr indel q g t_sz t_pos).length =
        (min (q.length + bw) (t_sz - tBeg t_pos) - 1) + 1 := by
      simp only [alignTable, List.length_cons]
      rw [buildRows_length]
    have h := buildRows_good scr indel q g (tBeg t_pos) (q.length + bw)
      (min (q.length + bw) (t_sz - tBeg t_pos) - 1) 1
      (List.replicate bw 0) k' le_rfl (by omega)
    rw [show (1 : Nat) + k' = k' + 1 from by omega] at h
    simpa [alignTable] using h

/-- The cell-level invariant holds for the filled table. -/
theorem alignTable_cellsGood (scr : Nat → Nat → Int) (indel : Int)
    (q : List Nat) (g : Nat → Nat) (t_sz t_pos : Nat) :
    cellsGood (q.length + bw)
      ((alignTable scr indel q g t_sz t_pos).map Prod.fst)
      ((alignTable scr indel q g t_sz t_pos).map Prod.snd) := by
  intro i j hpos
  rw [map_fst_getD] at hpos
  by_cases hlt : i < (alignTable scr indel q g t_sz t_pos).length
  · obtain ⟨_, _, hcell⟩ :=
      alignTable_getD_good scr indel q g t_sz t_pos i hlt
    have h := (hcell j).2 hpos
    rw [map_snd_getD]
    exact ⟨h.1, h.2.1, h.2.2.1, h.2.2.2.1, h.2.2.2.2.1, h.2.2.2.2.2⟩
  · have hdef : (alignTable scr indel q g t_sz t_pos).getD i ([], []) =
        (([], []) : List Int × List Char) :=
      List.getD_eq_default _ _ (by omega)
    rw [hdef] at hpos
    simp at hpos

/-- Length of the flattened table when all rows are `bw` wide. -/
theorem flatten_length_const (L : List (List Int))
    (hL : ∀ k, k < L.length → (L.getD k []).length = bw) :
    L.flatten.length = L.length * bw := by
  induction L with
  | nil => simp
  | cons row L' ih =>
    have h0 : row.length = bw := by simpa using hL 0 (by simp)
    simp only [List.flatten_cons, List.length_append, List.length_cons]
    rw [ih (fun k hk => by simpa using hL (k + 1) (by simp; omega)), h0]
    ring

/-- Reading the flattened table at a row-major index when all rows
are `bw` wide. -/
theorem flatten_getD_const (L : List (List Int))
    (hL : ∀ k, k < L.length → (L.getD k []).length = bw) :
    ∀ k, k < L.length * bw →
      L.flatten.getD k 0 = (L.getD (k / bw) []).getD (k % bw) 0 := by
  induction L with
  | nil => intro k hk; simp at hk
  | cons row L' ih =>
    intro k hk
    have h0 : row.length = bw := by simpa using hL 0 (by simp)
    by_cases hkb : k < bw
    · rw [List.flatten_cons, List.getD_append _ _ _ _ (by omega),
        Nat.div_eq_of_lt hkb, Nat.mod_eq_of_lt hkb]
      simp
    · rw [List.flatten_cons, List.getD_append_right _ _ _ _ (by omega)]
      have hk' : k - bw < L'.length * bw := by
        rw [bw_eq] at hk hkb ⊢
        simp only [List.length_cons] at hk
        omega
      have ih' := ih
        (fun k' hk' => by simpa using hL (k' + 1) (by simp; omega))
        (k - bw) hk'
      rw [h0, ih']
      have hdiv : k / bw = (k - bw) / bw + 1 := by
        rw [bw_eq] at hkb ⊢
        omega
      have hmod : k % bw = (k - bw) % bw := by
        rw [bw_eq] at hkb ⊢
        omega
      rw [hdiv, hmod]
      simp

/-- `argmaxAux` returns its running best or an indexed element of the
remaining list. -/
theorem argmaxAux_mem :
    ∀ (l : List Int) (i bi : Nat) (bv : Int),
      argmaxAux l i bi bv = (bi, bv) ∨
        ∃ k, k < l.length ∧ argmaxAux l i bi bv = (i + k, l.getD k 0)
  | [], _, _, _ => Or.inl rfl
  | x :: xs, i, bi, bv => by
    have hunf : argmaxAux (x :: xs) i bi bv =
        if bv < x then argmaxAux xs (i + 1) i x
        else argmaxAux xs (i + 1) bi bv := rfl
    rw [hunf]
    split
    · rcases argmaxAux_mem xs (i + 1) i x with h | ⟨k, hk, h⟩
      · right
        exact ⟨0, by simp, by simpa using h⟩
      · right
        refine ⟨k + 1, by simp only [List.length_cons]; omega, ?_⟩
        rw [h, show i + 1 + k = i + (k + 1) from by omega]
        simp
    · rcases argmaxAux_mem xs (i + 1) bi bv with h | ⟨k, hk, h⟩
      · left; exact h
      · right
        refine ⟨k + 1, by simp only [List.length_cons]; omega, ?_⟩
        rw [h, show i + 1 + k = i + (k + 1) from by omega]
        simp

/-- `argmaxIdx` of a non-empty list returns an actual indexed cell. -/
theorem argmaxIdx_mem (l : List Int) (hne : l ≠ []) :
    ∃ k, k < l.length ∧ argmaxIdx l = (k, l.getD k 0) := by
  cases l with
  | nil => exact absurd rfl hne
  | cons x xs =>
    have hunf : argmaxIdx (x :: xs) = argmaxAux xs 1 0 x := rfl
    rw [hunf]
    rcases argmaxAux_mem xs 1 0 x with h | ⟨k, hk, h⟩
    · exact ⟨0, by simp, by simpa using h⟩
    · refine ⟨k + 1, by simp only [List.length_cons]; omega, ?_⟩
      rw [h, show (1 : Nat) + k = k + 1 from by omega]
      simp

/-- Geometry and content of the traceback walk over a table with the
cell invariant: M and I steps each consume one of `row + col`, M and D
steps each consume one of `row`, every emitted arrow is M, I or D, and
the walk never leaves the region `row + col ≥ bw − 1`. -/
theorem walk_spec (t_shift : Nat) (tab : List (List Int))
    (tbk : List (List Char)) (hg : cellsGood t_shift tab tbk) :
    ∀ (fuel r c : Nat), bw - 1 ≤ r + c →
      ∀ ops rf cf, walkAux tab tbk fuel r c = (ops, rf, cf) →
        ops.count 'M' + ops.count 'I' + (rf + cf) = r + c ∧
        ops.count 'M' + ops.count 'D' + rf = r ∧
        (∀ a ∈ ops, a = 'M' ∨ a = 'I' ∨ a = 'D') ∧
        bw - 1 ≤ rf + cf
  | 0, r, c, hrc, ops, rf, cf, heq => by
    rw [show walkAux tab tbk 0 r c = ([], r, c) from rfl] at heq
    simp only [Prod.mk.injEq] at heq
    obtain ⟨rfl, rfl, rfl⟩ := heq
    simp only [List.count_nil]
    exact ⟨by omega, by omega, by simp, hrc⟩
  | fuel + 1, r, c, hrc, ops, rf, cf, heq => by
    rw [walkAux] at heq
    by_cases hpos : 0 < (tab.getD r []).getD c 0
    · rw [if_pos hpos] at heq
      obtain ⟨h1i, hleft, hright, hsym, hD, hI⟩ := hg r c hpos
      have hlb : bw ≤ r + leftOf r := bw_le_add_leftOf r
      by_cases hDc : (tbk.getD r []).getD c ' ' = 'D'
      · rw [if_pos hDc, hDc] at heq
        simp only [Prod.mk.injEq, Prod.ext_iff] at heq
        obtain ⟨hops, hrf, hcf⟩ := heq
        have hrec := walk_spec t_shift tab tbk hg fuel (r - 1) (c + 1)
          (by omega)
          (walkAux tab tbk fuel (r - 1) (c + 1)).1
          (walkAux tab tbk fuel (r - 1) (c + 1)).2.1
          (walkAux tab tbk fuel (r - 1) (c + 1)).2.2 rfl
        subst hops hrf hcf
        refine ⟨?_, ?_, ?_, by omega⟩
        · simp only [List.count_cons]
          simp
          omega
        · simp only [List.count_cons]
          simp
          omega
        · intro a ha
          rcases List.mem_cons.1 ha with rfl | ha'
          · exact Or.inr (Or.inr rfl)
          · exact hrec.2.2.1 a ha'
      · rw [if_neg hDc] at heq
        by_cases hIc : (tbk.getD r []).getD c ' ' = 'I'
        · rw [if_pos hIc, hIc] at heq
          simp only [Prod.mk.injEq, Prod.ext_iff] at heq
          obtain ⟨hops, hrf, hcf⟩ := heq
          have hcge : leftOf r + 1 ≤ c := hI hIc
          have hrec := walk_spec t_shift tab tbk hg fuel r (c - 1)
            (by omega)
            (walkAux tab tbk fuel r (c - 1)).1
            (walkAux tab tbk fuel r (c - 1)).2.1
            (walkAux tab tbk fuel r (c - 1)).2.2 rfl
          subst hops hrf hcf
          refine ⟨?_, ?_, ?_, by omega⟩
          · simp only [List.count_cons]
            simp
            omega
          · simp only [List.count_cons]
            simp
            omega
          · intro a ha
            rcases List.mem_cons.1 ha with rfl | ha'
            · exact Or.inr (Or.inl rfl)
            · exact hrec.2.2.1 a ha'
        · have hMc : (tbk.getD r []).getD c ' ' = 'M' := by
            rcases hsym with h | h | h
            · exact h
            · exact absurd h hIc
            · exact absurd h hDc
          rw [if_neg hIc, hMc] at heq
          simp only [Prod.mk.injEq, Prod.ext_iff] at heq
          obtain ⟨hops, hrf, hcf⟩ := heq
          have hrec := walk_spec t_shift tab tbk hg fuel (r - 1) c
            (by omega)
            (walkAux tab tbk fuel (r - 1) c).1
            (walkAux tab tbk fuel (r - 1) c).2.1
            (walkAux tab tbk fuel (r - 1) c).2.2 rfl
          subst hops hrf hcf
          refine ⟨?_, ?_, ?_, by omega⟩
          · simp only [List.count_cons]
            simp
            omega
          · simp only [List.count_cons]
            simp
            omega
          · intro a ha
            rcases List.mem_cons.1 ha with rfl | ha'
            · exact Or.inl rfl
            · exact hrec.2.2.1 a ha'
    · rw [if_neg hpos] at heq
      simp only [Prod.mk.injEq] at heq
      obtain ⟨rfl, rfl, rfl⟩ := heq
      simp only [List.count_nil]
      exact ⟨by omega, by omega, by simp, hrc⟩

/-- Fuel sufficiency: with `row·bw + col + 1` steps of fuel, the walk
ends on a non-positive cell, so the fueled recursion computes the
same operations as the source's unbounded while loop. -/
theorem walkAux_stops (t_shift : Nat) (tab : List (List Int))
    (tbk : List (List Char)) (hg : cellsGood t_shift tab tbk) :
    ∀ (fuel r c : Nat), r * bw + c < fuel →
      (tab.getD (walkAux tab tbk fuel r c).2.1 []).getD
        (walkAux tab tbk fuel r c).2.2 0 ≤ 0
  | 0, r, c, hf => by omega
  | fuel + 1, r, c, hf => by
    rw [walkAux]
    by_cases hpos : 0 < (tab.getD r []).getD c 0
    · rw [if_pos hpos]
      obtain ⟨h1i, hleft, hright, hsym, hD, hI⟩ := hg r c hpos
      by_cases hDc : (tbk.getD r []).getD c ' ' = 'D'
      · rw [if_pos hDc]
        exact walkAux_stops t_shift tab tbk hg fuel (r - 1) (c + 1)
          (by rw [bw_eq] at hf ⊢; omega)
      · rw [if_neg hDc]
        by_cases hIc : (tbk.getD r []).getD c ' ' = 'I'
        · rw [if_pos hIc]
          have hcge : leftOf r + 1 ≤ c := hI hIc
          exact walkAux_stops t_shift tab tbk hg fuel r (c - 1)
            (by rw [bw_eq] at hf ⊢; omega)
        · rw [if_neg hIc]
          exact walkAux_stops t_shift tab tbk hg fuel (r - 1) c
            (by rw [bw_eq] at hf ⊢; omega)
    · rw [if_neg hpos]
      show (tab.getD r []).getD c 0 ≤ 0
      omega

/-- Length contribution of one compressed entry. -/
theorem op_total_cons (n : Nat) (d : Char) (rest : List (Nat × Char))
    (s : Char) :
    op_total ((n, d) :: rest) s = (if d = s then n else 0) + op_total rest s := by
  unfold op_total
  rw [List.filter_cons]
  by_cases hds : d = s
  · simp [hds]
  · simp [hds]

/-- The run-length compressed CIGAR preserves per-operation totals:
the summed lengths of the `s` entries equal the number of `s`
operations in the scratch. -/
theorem op_total_compress : ∀ (l : List Char) (s : Char),
    op_total (compress_cigar l) s = l.count s
  | [], _ => rfl
  | c :: cs, s => by
    have ih := op_total_compress cs s
    have hunf : compress_cigar (c :: cs) =
        match compress_cigar cs with
        | [] => [(1, c)]
        | (n, d) :: rest =>
          if c = d then (n + 1, d) :: rest else (1, c) :: (n, d) :: rest :=
      rfl
    rw [List.count_cons]
    cases hc : compress_cigar cs with
    | nil =>
      have hcc : compress_cigar (c :: cs) = [(1, c)] := by rw [hunf, hc]
      rw [hc] at ih
      rw [show op_total ([] : List (Nat × Char)) s = 0 from rfl] at ih
      rw [hcc, op_total_cons,
        show op_total ([] : List (Nat × Char)) s = 0 from rfl]
      by_cases hcs : c = s <;> simp [hcs] <;> omega
    | cons p rest =>
      obtain ⟨n, d⟩ := p
      rw [hc, op_total_cons] at ih
      by_cases hcd : c = d
      · have hcc : compress_cigar (c :: cs) = (n + 1, d) :: rest := by
          rw [hunf, hc]
          show (if c = d then (n + 1, d) :: rest
              else (1, c) :: (n, d) :: rest) = (n + 1, d) :: rest
          rw [if_pos hcd]
        rw [hcc, op_total_cons]
        subst hcd
        by_cases hcs : c = s <;> simp [hcs] at ih ⊢ <;> omega
      · have hcc : compress_cigar (c :: cs) =
            (1, c) :: (n, d) :: rest := by
          rw [hunf, hc]
          show (if c = d then (n + 1, d) :: rest
              else (1, c) :: (n, d) :: rest) = (1, c) :: (n, d) :: rest
          rw [if_neg hcd]
        rw [hcc, op_total_cons, op_total_cons]
        by_cases hcs : c = s <;> by_cases hds : d = s <;>
          simp [hcs, hds] at ih ⊢ <;> omega

/-- Assembly arithmetic for the CIGAR scratch: clipping below the
best cell, the traceback ops and clipping above the final cell
together cover the query exactly once, M and D account for the rows
walked, and S blocks sit only at the two ends. -/
theorem align_assemble (q_len : Nat) (w1 : List Char)
    (rf cf r0 c0 scb sct : Nat)
    (hsum1 : w1.count 'M' + w1.count 'I' + (rf + cf) = r0 + c0)
    (hsum2 : w1.count 'M' + w1.count 'D' + rf = r0)
    (hmem : ∀ a ∈ w1, a = 'M' ∨ a = 'I' ∨ a = 'D')
    (hub : r0 + c0 ≤ q_len + (bw - 1))
    (hlb : bw - 1 ≤ rf + cf)
    (hscb : scb = q_len + (bw - 1) - (r0 + c0))
    (hsct : sct = rf + cf - (bw - 1)) :
    (op_total (compress_cigar ((List.replicate scb 'S' ++ w1 ++
          List.replicate sct 'S').reverse)) 'M' +
        op_total (compress_cigar ((List.replicate scb 'S' ++ w1 ++
          List.replicate sct 'S').reverse)) 'I' +
        op_total (compress_cigar ((List.replicate scb 'S' ++ w1 ++
          List.replicate sct 'S').reverse)) 'S' = q_len) ∧
    (((List.replicate scb 'S' ++ w1 ++
          List.replicate sct 'S').reverse).count 'M' +
        ((List.replicate scb 'S' ++ w1 ++
          List.replicate sct 'S').reverse).count 'D' + rf = r0) ∧
    (∃ a b mid, (List.replicate scb 'S' ++ w1 ++
          List.replicate sct 'S').reverse =
        List.replicate a 'S' ++ mid ++ List.replicate b 'S' ∧
      ∀ x ∈ mid, x = 'M' ∨ x = 'I' ∨ x = 'D') := by
  have hS : w1.count 'S' = 0 := by
    rw [List.count_eq_zero]
    intro hmemS
    rcases hmem 'S' hmemS with h | h | h <;> simp at h
  have hcounts : ∀ s : Char, ((List.replicate scb 'S' ++ w1 ++
      List.replicate sct 'S').reverse).count s =
      (List.replicate scb 'S').count s + w1.count s +
        (List.replicate sct 'S').count s := by
    intro s
    rw [List.count_reverse, List.count_append, List.count_append]
  refine ⟨?_, ?_, ?_⟩
  · rw [op_total_compress, op_total_compress, op_total_compress,
      hcounts, hcounts, hcounts]
    simp only [List.count_replicate]
    simp [hS]
    rw [bw_eq] at hub hlb hscb hsct
    omega
  · rw [hcounts, hcounts]
    simp only [List.count_replicate]
    simp
    omega
  · refine ⟨sct, scb, w1.reverse, ?_, ?_⟩
    · simp [List.reverse_append, List.reverse_replicate]
    · intro x hx
      exact hmem x (List.mem_reverse.1 hx)

/-- C3 (amended): whenever the banded table attains a positive score
— reported as a positive alignment score, which holds in particular
whenever the query has an in-band matching base — the CIGAR produced
by `AbismalAlign::align` is consistent: the run-length M, I and S
lengths sum to the query length, the soft-clips S form exactly one
leading and one trailing block around M/I/D operations, and the M and
D operations exactly span the reference interval from the updated
`t_pos` to the row of the best-scoring cell.  When no cell is
positive the soft-clip arithmetic underflows `size_t` and the claim
fails (see the counterexample). -/
theorem align_cigar_spec (scr : Nat → Nat → Int) (indel : Int)
    (q : List Nat) (g : Nat → Nat) (t_sz t_pos : Nat)
    (hpos : 0 < (align scr indel q g t_sz t_pos).2.2.2) :
    (op_total (compress_cigar (align scr indel q g t_sz t_pos).1) 'M' +
      op_total (compress_cigar (align scr indel q g t_sz t_pos).1) 'I' +
      op_total (compress_cigar (align scr indel q g t_sz t_pos).1) 'S' =
        q.length) ∧
    ((align scr indel q g t_sz t_pos).2.1 +
      ((align scr indel q g t_sz t_pos).1.count 'M' +
        (align scr indel q g t_sz t_pos).1.count 'D') =
      tBeg t_pos + (align_best_cell scr indel q g t_sz t_pos).1 / bw) ∧
    (tBeg t_pos ≤ (align scr indel q g t_sz t_pos).2.1) ∧
    (∃ a b mid, (align scr indel q g t_sz t_pos).1 =
        List.replicate a 'S' ++ mid ++ List.replicate b 'S' ∧
      ∀ x ∈ mid, x = 'M' ∨ x = 'I' ∨ x = 'D') := by
  set rows := alignTable scr indel q g t_sz t_pos with hrows
  set am := align_best_cell scr indel q g t_sz t_pos with ham
  set w := walkAux (rows.map Prod.fst) (rows.map Prod.snd)
      (am.1 / bw * bw + am.1 % bw + 1) (am.1 / bw) (am.1 % bw) with hwdef
  set scb := sizeSub (q.length + (bw - 1)) (am.1 / bw + am.1 % bw) with hscb
  set sct := sizeSub (w.2.1 + w.2.2) (bw - 1) with hsct
  have halign : align scr indel q g t_sz t_pos =
      ((List.replicate scb 'S' ++ w.1 ++ List.replicate sct 'S').reverse,
        tBeg t_pos + w.2.1,
        sizeSub (sizeSub q.length scb) sct, am.2) := rfl
  -- the invariant of the filled table
  have hcg : cellsGood (q.length + bw) (rows.map Prod.fst)
      (rows.map Prod.snd) := by
    rw [hrows]
    exact alignTable_cellsGood scr indel q g t_sz t_pos
  have hrowlen : ∀ k, k < (rows.map Prod.fst).length →
      ((rows.map Prod.fst).getD k []).length = bw := by
    intro k hk
    rw [map_fst_getD]
    rw [hrows] at hk ⊢
    simp only [List.length_map] at hk
    exact (alignTable_getD_good scr indel q g t_sz t_pos k hk).1
  -- the best cell is a genuine positive in-band cell
  have hflatlen : (rows.map Prod.fst).flatten.length =
      rows.length * bw := by
    rw [flatten_length_const _ hrowlen]
    simp
  have hne : (rows.map Prod.fst).flatten ≠ [] := by
    intro hnil
    have h0 : (rows.map Prod.fst).flatten.length = 0 := by
      rw [hnil]
      rfl
    have hlen1 : 1 ≤ rows.length := by
      rw [hrows]
      simp [alignTable]
    rw [hflatlen, bw_eq] at h0
    omega
  obtain ⟨k, hk, hargm⟩ := argmaxIdx_mem _ hne
  have hamk : am = (k, (rows.map Prod.fst).flatten.getD k 0) := by
    rw [ham]
    rw [show align_best_cell scr indel q g t_sz t_pos =
        argmaxIdx (((alignTable scr indel q g t_sz t_pos).map
          Prod.fst).flatten) from rfl, ← hrows]
    exact hargm
  have ham1 : am.1 = k := by rw [hamk]
  have ham2v : am.2 = (rows.map Prod.fst).flatten.getD k 0 := by
    rw [hamk]
  have hscorepos : 0 < (rows.map Prod.fst).flatten.getD k 0 := by
    have h2 : (align scr indel q g t_sz t_pos).2.2.2 = am.2 := by
      rw [halign]
    rw [h2, ham2v] at hpos
    exact hpos
  have hkflat : k < rows.length * bw := by
    rw [← hflatlen]
    exact hk
  have hcellpos : 0 <
      ((rows.map Prod.fst).getD (k / bw) []).getD (k % bw) 0 := by
    rw [← flatten_getD_const _ hrowlen k (by simpa using hkflat)]
    exact hscorepos
  obtain ⟨h1r, hleft, hright, hsm, hsd, hsi⟩ :=
    hcg (k / bw) (k % bw) hcellpos
  -- geometry of the best cell
  have hub : k / bw + k % bw ≤ q.length + (bw - 1) := by
    have h := hright
    unfold rightOf at h
    rw [bw_eq] at h ⊢
    omega
  have hlb : bw - 1 ≤ k / bw + k % bw := by
    have h := bw_le_add_leftOf (k / bw)
    omega
  -- the traceback walk
  have hws := walk_spec (q.length + bw) (rows.map Prod.fst)
    (rows.map Prod.snd) hcg (am.1 / bw * bw + am.1 % bw + 1)
    (am.1 / bw) (am.1 % bw)
    (by rw [ham1]; exact hlb) w.1 w.2.1 w.2.2 (by rw [hwdef])
  obtain ⟨hsum1, hsum2, hmem, hlbf⟩ := hws
  rw [ham1] at hsum1 hsum2
  -- soft-clip sizes are exact subtractions
  have hscb_eq : scb = q.length + (bw - 1) - (k / bw + k % bw) := by
    rw [hscb, ham1]
    unfold sizeSub
    rw [if_pos hub]
  have hsct_eq : sct = w.2.1 + w.2.2 - (bw - 1) := by
    rw [hsct]
    unfold sizeSub
    rw [if_pos hlbf]
  -- assemble
  obtain ⟨hc1, hc2, hc3⟩ := align_assemble q.length w.1 w.2.1 w.2.2
    (k / bw) (k % bw) scb sct hsum1 hsum2 hmem hub hlbf hscb_eq hsct_eq
  refine ⟨?_, ?_, ?_, ?_⟩
  · rw [halign]
    exact hc1
  · rw [halign, ham1]
    dsimp only
    omega
  · rw [halign]
    exact Nat.le_add_right _ _
  · rw [halign]
    exact hc3

/-- Witness for C3's amended statement: a one-base query matching the
reference at start position 2 of a ten-base genome scores 1. -/
theorem align_cigar_spec_witness :
    ((0 : Int) <
      (align mismatch_score indel_penalty [1] (fun _ => 1) 10 2).2.2.2) ∧
    ((op_total (compress_cigar (align mismatch_score indel_penalty [1]
          (fun _ => 1) 10 2).1) 'M' +
        op_total (compress_cigar (align mismatch_score indel_penalty [1]
          (fun _ => 1) 10 2).1) 'I' +
        op_total (compress_cigar (align mismatch_score indel_penalty [1]
          (fun _ => 1) 10 2).1) 'S' = ([1] : List Nat).length) ∧
      ((align mismatch_score indel_penalty [1] (fun _ => 1) 10 2).2.1 +
        ((align mismatch_score indel_penalty [1]
            (fun _ => 1) 10 2).1.count 'M' +
          (align mismatch_score indel_penalty [1]
            (fun _ => 1) 10 2).1.count 'D') =
        tBeg 2 + (align_best_cell mismatch_score indel_penalty [1]
          (fun _ => 1) 10 2).1 / bw) ∧
      (tBeg 2 ≤
        (align mismatch_score indel_penalty [1] (fun _ => 1) 10 2).2.1) ∧
      (∃ a b mid,
        (align mismatch_score indel_penalty [1] (fun _ => 1) 10 2).1 =
          List.replicate a 'S' ++ mid ++ List.replicate b 'S' ∧
        ∀ x ∈ mid, x = 'M' ∨ x = 'I' ∨ x = 'D')) :=
  ⟨by decide,
    align_cigar_spec mismatch_score indel_penalty [1] (fun _ => 1) 10 2
      (by decide)⟩

/-- C3 counterexample: on the all-mismatch one-base query `[0]` (an
encoded N) no table cell is positive, the best cell is (0,0), and the
soft-clip-above length `(the_row + the_col) − (bw − 1)` wraps around
in `size_t`; the resulting operation list does not satisfy
M + I + S = query length, so the claim as stated fails. -/
theorem align_cigar_counterexample :
    op_total (compress_cigar (align mismatch_score indel_penalty [0]
        (fun _ => 1) 10 2).1) 'M' +
      op_total (compress_cigar (align mismatch_score indel_penalty [0]
        (fun _ => 1) 10 2).1) 'I' +
      op_total (compress_cigar (align mismatch_score indel_penalty [0]
        (fun _ => 1) 10 2).1) 'S' ≠ ([0] : List Nat).length := by
  rw [op_total_compress, op_total_compress, op_total_compress]
  set q0 : List Nat := [0] with hq0
  set g0 : Nat → Nat := fun _ => 1 with hg0
  set rows := alignTable mismatch_score indel_penalty q0 g0 10 2 with hrows
  set am := align_best_cell mismatch_score indel_penalty q0 g0 10 2
    with ham
  set w := walkAux (rows.map Prod.fst) (rows.map Prod.snd)
      (am.1 / bw * bw + am.1 % bw + 1) (am.1 / bw) (am.1 % bw) with hwdef
  set scb := sizeSub (q0.length + (bw - 1)) (am.1 / bw + am.1 % bw)
    with hscb
  set sct := sizeSub (w.2.1 + w.2.2) (bw - 1) with hsct
  have halign : align mismatch_score indel_penalty q0 g0 10 2 =
      ((List.replicate scb 'S' ++ w.1 ++ List.replicate sct 'S').reverse,
        tBeg 2 + w.2.1, sizeSub (sizeSub q0.length scb) sct, am.2) := rfl
  have ham0 : am = (0, 0) := by
    rw [ham, hq0, hg0]
    decide
  have hw0 : w = ([], 0, 0) := by
    rw [hwdef, hrows, ham0, hq0, hg0]
    decide
  have hscb0 : scb = 5 := by
    rw [hscb, ham0, hq0]
    decide
  have hsct0 : 4 ≤ sct := by
    rw [hsct, hw0]
    decide
  have h1 : (align mismatch_score indel_penalty q0 g0 10 2).1 =
      (List.replicate scb 'S' ++ w.1 ++ List.replicate sct 'S').reverse := by
    rw [halign]
  rw [h1, hw0, hscb0, hq0]
  simp [List.count_reverse, List.count_append, List.count_replicate]

/-- Witness for C10 with `n_seed_positions = 3` and a five-base read. -/
theorem loaded_read_length_spec_witness :
    ((1 : Nat) ≤ 3 ∧ load_read 3 ['A', 'C', 'G', 'T', 'A'] ≠ []) ∧
    (3 + 1 ≤ (load_read 3 ['A', 'C', 'G', 'T', 'A']).length ∧
     2 ≤ num_shifts 3 (load_read 3 ['A', 'C', 'G', 'T', 'A']).length ∧
     shift_lim 3 (load_read 3 ['A', 'C', 'G', 'T', 'A']).length + 3 =
       (load_read 3 ['A', 'C', 'G', 'T', 'A']).length) :=
  ⟨⟨by decide, by decide⟩,
    loaded_read_length_spec 3 ['A', 'C', 'G', 'T', 'A'] (by decide)
      (by decide)⟩

end Abismal
